import Mathlib

/-
Verification of the final-unit test synthesizer: a shallow embedding of the
runtime-capture decoder (package runtime) and of the type-to-value
synthesizer (internal/gen/gen.go), with theorems checking the natural
language specification against the code.
-/

set_option maxHeartbeats 1000000

namespace FinalUnit

/-! Embedding of the runtime-capture decoder (the `runtime` package's
`Output`, `AssertStmts`, `CreateAssertStmts` and `ParseLine`). -/

namespace Runtime

/-- Embedding of the Go struct `Output`: the JSON shape of a runtime capture
(`type`, `var_name`, `map_key_type`, `val`, `arr_ident`, `child`). Go's
recursive struct-with-pointer becomes a nested inductive with an
`Option` child. -/
inductive Output where
  | mk (type varName mapKeyType val arrIdent : String) (child : Option Output)
deriving Repr

/-- Field accessor for `Output.Type`. -/
def Output.type : Output → String
  | .mk t _ _ _ _ _ => t

/-- Field accessor for `Output.VarName`. -/
def Output.varName : Output → String
  | .mk _ v _ _ _ _ => v

/-- Field accessor for `Output.MapKeyType`. -/
def Output.mapKeyType : Output → String
  | .mk _ _ m _ _ _ => m

/-- Field accessor for `Output.Val`. -/
def Output.val : Output → String
  | .mk _ _ _ v _ _ => v

/-- Field accessor for `Output.ArrIdent`. -/
def Output.arrIdent : Output → String
  | .mk _ _ _ _ a _ => a

/-- Field accessor for `Output.Child`. -/
def Output.child : Output → Option Output
  | .mk _ _ _ _ _ c => c

/-- The zero value of the Go struct `Output`: what `json.Unmarshal` leaves
behind when it decodes nothing. -/
def Output.zero : Output := .mk "" "" "" "" "" none

/-- Embedding of the Go struct `Replacement`: a loop/key placeholder and the
literal runtime text that replaces it. -/
structure Replacement where
  key : String
  val : String
deriving Repr, DecidableEq

/-- Embedding of the Go struct `TypeCorrections`; the fields `pre` and `suf`
stand for the Go fields holding the text put before and after a
reconstructed literal. -/
structure TypeCorrections where
  pre : String
  suf : String
deriving Repr, DecidableEq

/-- Embedding of the Go `AssignStmt` token: a first declaration (`:=`, the Go
constant `AssignStmtTypeDefine`) or a plain re-assignment (`=`, the Go
constant `AssignSTmtTypeAssign`). -/
inductive AssignStmtType where
  | define
  | assign
deriving Repr, DecidableEq

/-- Embedding of the Go `AssertStmt` kinds. -/
inductive AssertStmtType where
  | equalValues
  | isTrue
  | isFalse
  | isNil
  | noError
  | isError
deriving Repr, DecidableEq

/-- Embedding of the Go `Stmt` variants built by the decoder: `AssignStmt`
(assign token, left-hand side, right-hand side) and `AssertStmt` (kind,
expected text, value text; kinds other than equal-values leave the value
field at its zero value `""`). -/
inductive Stmt where
  | assignStmt (t : AssignStmtType) (leftHand rightHand : String)
  | assertStmt (t : AssertStmtType) (expected value : String)
deriving Repr, DecidableEq

/-- Modelled from the spec: the statement method `Replace`, whose body is not
under src/ (only its caller `CreateAssertStmts` is). The spec says the
identifier-substitution pass applies every accumulated replacement "by
textual substitution ... to every previously emitted statement's
operands", so `Replace` substitutes in each operand string of the
statement. -/
def Stmt.Replace (s : Stmt) (key val : String) : Stmt :=
  match s with
  | .assignStmt t l r => .assignStmt t (l.replace key val) (r.replace key val)
  | .assertStmt t e v => .assertStmt t (e.replace key val) (v.replace key val)

/-- Modelled from the spec: the helper `Contains` used by `AssertStmts` is not
under src/. Per the spec the decoder maintains "a set of variable names for
which a first declaration has already been emitted; on first encounter emit
a declaring assignment, on any subsequent encounter of the *same* target
name emit a plain re-assignment". The entries stored in `mem` are the
markers `"<name> :="`, and the query is the full statement text
`"<name> := *<ptr>"`, so membership is the test that some stored marker
starts the queried statement. -/
def Contains (mem : List String) (s : String) : Bool :=
  mem.any (fun m => m.data.isPrefixOf s.data)

/-- The Go type-name list of the integer and floating-point families handled
by `CreateAssertStmts` (the first case of its switch). -/
def numericTypes : List String :=
  ["int", "float32", "float64", "byte", "rune", "uintptr",
   "uint", "uint8", "uint16", "uint32", "uint64",
   "int8", "int16", "int32", "int64"]

/-- Embedding of `CreateAssertStmts`: applies the accumulated replacements to
the leaf's variable name and to every previously emitted statement, then
dispatches on the leaf's declared type to build the final assertion. An
unknown type tag is logged in Go and answered with an empty statement list
(dropping the accumulated statements as the Go code does). -/
def CreateAssertStmts (runtimeOutput : Output) (replacements : List Replacement)
    (typeCorrection : TypeCorrections) (resStmts : List Stmt) : List Stmt :=
  let vn := replacements.foldl (fun v r => v.replace r.key r.val) runtimeOutput.varName
  let stmts := resStmts.map (fun s => replacements.foldl (fun s r => s.Replace r.key r.val) s)
  if numericTypes.contains runtimeOutput.type then
    stmts ++ [.assertStmt .equalValues
      (typeCorrection.pre ++ runtimeOutput.type ++ "(" ++ runtimeOutput.val ++ ")" ++ typeCorrection.suf) vn]
  else if runtimeOutput.type = "string" then
    stmts ++ [.assertStmt .equalValues
      (typeCorrection.pre ++ runtimeOutput.type ++ "(`" ++ runtimeOutput.val ++ "`)" ++ typeCorrection.suf) vn]
  else if runtimeOutput.type = "bool" then
    if runtimeOutput.val = "true" then
      stmts ++ [.assertStmt .isTrue vn ""]
    else
      stmts ++ [.assertStmt .isFalse vn ""]
  else if runtimeOutput.type = "complex64" ∨ runtimeOutput.type = "complex128" then
    stmts ++ [.assertStmt .equalValues
      (typeCorrection.pre ++ runtimeOutput.type ++ runtimeOutput.val ++ typeCorrection.suf) vn]
  else if runtimeOutput.type = "pointer" then
    stmts ++ [.assertStmt .isNil vn ""]
  else if runtimeOutput.type = "error" then
    if runtimeOutput.val = "nil" then
      stmts ++ [.assertStmt .noError vn ""]
    else
      stmts ++ [.assertStmt .isError vn ""]
  else
    []

/-- Embedding of `AssertStmts`: the recursive-descent walk over the capture
tree. The Go `*[]string` memo pointer becomes a threaded value returned in
the second component. The branch order mirrors the Go switch: a childless
node goes to `CreateAssertStmts`, then `arr`, `custom`, `map`, `pointer`
and the default all continue into the child. -/
def AssertStmts (data : Output) (replacements : List Replacement)
    (typeCorrection : TypeCorrections) (resStmts : List Stmt) (mem : List String) :
    List Stmt × List String :=
  match data with
  | .mk ty vn mkt val arr none =>
      (CreateAssertStmts (.mk ty vn mkt val arr none) replacements typeCorrection resStmts, mem)
  | .mk ty vn mkt val arr (some c) =>
      if ty = "arr" then
        AssertStmts c (replacements ++ [⟨arr, val⟩]) typeCorrection resStmts mem
      else if ty = "custom" then
        AssertStmts c replacements typeCorrection resStmts mem
      else if ty = "map" then
        let x := if mkt = "string" then "\"" ++ val ++ "\"" else val
        AssertStmts c (replacements ++ [⟨arr, x⟩]) typeCorrection resStmts mem
      else if ty = "pointer" then
        if val ≠ "nil" then
          let pointerStmt := c.varName ++ " := *" ++ vn
          if ¬ Contains mem pointerStmt then
            AssertStmts c replacements typeCorrection
              (resStmts ++ [.assignStmt .define c.varName ("*" ++ vn)])
              (mem ++ [c.varName ++ " :="])
          else
            AssertStmts c replacements typeCorrection
              (resStmts ++ [.assignStmt .assign c.varName ("*" ++ vn)]) mem
        else
          AssertStmts c replacements typeCorrection resStmts mem
      else
        AssertStmts c replacements typeCorrection resStmts mem

/-- Embedding of `Info.ParseLine`. Go's `json.Unmarshal` is modelled by the
`parsed` argument: `some data` for a line holding well-formed JSON of the
`Output` shape, `none` for a malformed line (`encoding/json` validates the
whole input before decoding, so a syntactically malformed line leaves the
zero `Output` behind and the error is only logged). The external statement
printer is the opaque parameter `printStmt`. -/
def ParseLine (printStmt : Stmt → String) (parsed : Option Output)
    (mem : List String) : List String × List String :=
  let data := match parsed with
    | some d => d
    | none => Output.zero
  let r := AssertStmts data [] ⟨"", ""⟩ [] mem
  (r.1.map printStmt, r.2)

end Runtime

/-! Embedding of the determinism validator (`RunTimeInfo.SetIsValid` of
internal/gen/gen.go). -/

namespace Gen

/-- Embedding of the `RunTimeInfo` struct (the `Panics` field plays no role in
`SetIsValid` and is omitted): the printed statement lists captured by the
two independent instrumented executions, and the validity flag. -/
structure RunTimeInfo where
  IsValid : Bool
  AssertStmts : List String
  SecondRun : List String
deriving Repr, DecidableEq

/-- The index loop of `SetIsValid` over two equal-length lists, embedded as a
paired recursion: `true` exactly when some corresponding pair differs
before either list ends. -/
def anyPairDiffers : List String → List String → Bool
  | a :: as, b :: bs => if a ≠ b then true else anyPairDiffers as bs
  | _, _ => false

/-- Embedding of `RunTimeInfo.SetIsValid`: length check first, then the
element-wise comparison loop; the Go method both returns the verdict and
stores it in the `IsValid` field, so the embedding returns the pair. -/
def RunTimeInfo.SetIsValid (r : RunTimeInfo) : Bool × RunTimeInfo :=
  if r.AssertStmts.length ≠ r.SecondRun.length then
    (false, { r with IsValid := false })
  else if anyPairDiffers r.AssertStmts r.SecondRun then
    (false, { r with IsValid := false })
  else
    (true, { r with IsValid := true })

end Gen

/-! Embedding of the type-to-value synthesizer of internal/gen/gen.go: the
cycle guard (`CycleInfo`, `StructExprToValExpr`'s counter/memo logic), the
struct-field filter (`StructFieldsToKeyValExpr`), map synthesis
(`MapExprToValExpr`), the nil stubs (`InterfaceNilFunc`, `FuncNilFunc`,
dispatch of `TypeSpecToValExpr`), the interface synthesis entry
(`InterfaceTypeToValExpr`) and the call-statement builder
(`FuncDeclToExprStmt`). -/

namespace Gen

/-- The Go constant `DefaultAmountRecursion`. -/
def DefaultAmountRecursion : Nat := 3

/-- The fragment of Go type expressions along which the struct cycle guard
recurses: a basic identifier (handled by the external literal-value
policy), a named identifier whose declaration is a struct type spec
(`TypeSpecToValExpr` into `StructExprToValExpr`), a pointer
(`StarExprToValExpr`) and an array (`ArrayExprToValExpr`). Interface,
map, channel and function synthesis are embedded separately; struct
self-reference, graph depth and fan-out all live in this fragment. -/
inductive TypeExpr where
  | basic (name : String)
  | named (name : String)
  | star (t : TypeExpr)
  | array (t : TypeExpr)
deriving Repr, DecidableEq

/-- Value expressions produced by the synthesizer fragment: `emptyLit` is
`EmptyResult`'s bare `BasicLit`, `basicVal` the literal the external value
policy supplies for a basic type, `addrOf` the `&` expression a pointer
synthesis returns (the temporary-variable assignment statement it also
emits carries no cycle state and is omitted), `arrayLit` a composite array
literal, `compositeLit` a named composite literal. -/
inductive SynExpr where
  | emptyLit
  | basicVal (tyName : String)
  | addrOf (e : SynExpr)
  | arrayLit (elts : List SynExpr)
  | compositeLit (tyName : String) (elts : List SynExpr)
deriving Repr

/-- Embedding of the struct part of the Go `CycleInfo`: the per-name
occurrence counter `Structs` and the memo `StructMem`. The Go map keyed
by `*ast.StructType` coincides with the name key here because the
embedding models one (root) package in which each named struct has one
declaration. `expansions` is a ghost counter, increased exactly when a
struct synthesis recurses into its fields, used to state the recursion
bound. -/
structure CycleInfo where
  Structs : String → Nat
  StructMem : String → Option SynExpr
  expansions : String → Nat

/-- Embedding of `FreshCycleInfo`: empty counters and memos. -/
def FreshCycleInfo : CycleInfo :=
  { Structs := fun _ => 0, StructMem := fun _ => none, expansions := fun _ => 0 }

/-- The counter increment `input.counter.Structs[name]++`. -/
def CycleInfo.bump (ci : CycleInfo) (s : String) : CycleInfo :=
  { ci with Structs := fun n => if n = s then ci.Structs n + 1 else ci.Structs n }

/-- The memo write guarded by the first-encounter check: `if !ok {
input.counter.StructMem[structExpr] = ... }`. -/
def CycleInfo.memoIfAbsent (ci : CycleInfo) (s : String) (e : SynExpr) : CycleInfo :=
  match ci.StructMem s with
  | some _ => ci
  | none => { ci with StructMem := fun n => if n = s then some e else ci.StructMem n }

/-- Ghost bookkeeping: record that the synthesis of struct `s` recursed into
its fields. -/
def CycleInfo.expand (ci : CycleInfo) (s : String) : CycleInfo :=
  { ci with expansions := fun n => if n = s then ci.expansions n + 1 else ci.expansions n }

/-- The struct-declaration environment: what the external symbol resolver
returns for named struct identifiers, as a name-to-field-types table. -/
abbrev Env := List (String × List TypeExpr)

/-- Resolver lookup over the environment. -/
def lookupEnv : Env → String → Option (List TypeExpr)
  | [], _ => none
  | (n, fs) :: rest, s => if n = s then some fs else lookupEnv rest s

/-- The state update `StructExprToValExpr` performs before branching: store
the bare composite-literal skeleton in the memo when this is the type's
first encounter, then increment the occurrence counter. -/
def StructEnter (st : CycleInfo) (s : String) : CycleInfo :=
  (st.memoIfAbsent s (.compositeLit s [])).bump s

mutual

/-- Fueled embedding of the recursion `TypeExprToValExpr` /
`TypeSpecToValExpr` / `StructExprToValExpr` over the fragment of
`TypeExpr`, threading the shared `CycleInfo` (the Go maps are reference
values shared along the whole recursion). The `named` case is
`StructExprToValExpr`: memoize-if-absent, increment the per-name counter,
return the memoized skeleton when the counter exceeds `maxRec` and a memo
pre-existed, otherwise recurse into the declared field list. An
unresolvable identifier is logged in Go and answered with `EmptyResult`.
`fuel` is a step budget making the definition total; the theorems show a
computable sufficient budget. -/
def TypeExprToValExpr (env : Env) (maxRec arrLen : Nat) :
    Nat → TypeExpr → CycleInfo → Option (SynExpr × CycleInfo)
  | 0, _, _ => none
  | _ + 1, .basic s, st => some (.basicVal s, st)
  | fuel + 1, .star t, st =>
    match TypeExprToValExpr env maxRec arrLen fuel t st with
    | none => none
    | some (e, st') => some (.addrOf e, st')
  | fuel + 1, .array t, st =>
    match SynthList env maxRec arrLen fuel (List.replicate arrLen t) st with
    | none => none
    | some (es, st') => some (.arrayLit es, st')
  | fuel + 1, .named s, st =>
    match lookupEnv env s with
    | none => some (.emptyLit, st)
    | some fields =>
      let memOld := st.StructMem s
      let st1 := StructEnter st s
      if maxRec < st1.Structs s ∧ memOld.isSome then
        some (memOld.getD (.compositeLit s []), st1)
      else
        match SynthList env maxRec arrLen fuel fields (st1.expand s) with
        | none => none
        | some (es, st') => some (.compositeLit s es, st')

/-- Fueled embedding of the element loops that thread one `CycleInfo`
through a sequence of sub-syntheses (the array-element loop of
`ArrayExprToValExpr` and the field loop of `StructFieldsToKeyValExpr`). -/
def SynthList (env : Env) (maxRec arrLen : Nat) :
    Nat → List TypeExpr → CycleInfo → Option (List SynExpr × CycleInfo)
  | 0, _, _ => none
  | _ + 1, [], st => some ([], st)
  | fuel + 1, t :: ts, st =>
    match TypeExprToValExpr env maxRec arrLen fuel t st with
    | none => none
    | some (e, st') =>
      match SynthList env maxRec arrLen fuel ts st' with
      | none => none
      | some (es, st'') => some (e :: es, st'')

end

/-- Size of a type expression, weighted by the policy-chosen array length so
that the elements of an array expansion are jointly smaller than the
array. -/
def sizeT (arrLen : Nat) : TypeExpr → Nat
  | .basic _ => 1
  | .named _ => 1
  | .star t => sizeT arrLen t + 1
  | .array t => arrLen * (sizeT arrLen t + 1) + 1

/-- Size of a list of type expressions. -/
def sizeL (arrLen : Nat) : List TypeExpr → Nat
  | [] => 0
  | t :: ts => sizeT arrLen t + sizeL arrLen ts + 1

/-- Remaining recursion budget one struct name contributes: a name without a
memo may still be entered freely once (which writes the memo); a name with
a memo may be entered while its counter is at most `maxRec`. -/
def weight (maxRec : Nat) (st : CycleInfo) (s : String) : Nat :=
  if (st.StructMem s).isSome then (maxRec + 1) - min (st.Structs s) (maxRec + 1)
  else maxRec + 2

/-- Total remaining recursion budget over the environment's struct names. -/
def budget (maxRec : Nat) (keys : List String) (st : CycleInfo) : Nat :=
  (keys.map (weight maxRec st)).sum

/-- Joint size of the field lists of all declarations of the environment. -/
def envSizeSum (arrLen : Nat) (env : Env) : Nat :=
  (env.map (fun p => sizeL arrLen p.2 + 1)).sum

/-- A computable fuel bound under which the fueled synthesizer is shown to
answer: initial budget times a strict bound on every type-expression size
met during the run, plus the size of the start expression. -/
def suffFuel (env : Env) (maxRec arrLen : Nat) (e : TypeExpr) : Nat :=
  budget maxRec (env.map Prod.fst) FreshCycleInfo *
    (sizeT arrLen e + envSizeSum arrLen env + 1) + sizeT arrLen e + 1

/-- How one `CycleInfo` evolves into a later one along the synthesis: the
occurrence counters only grow and a memo, once written, stays present. -/
def Evolves (st st' : CycleInfo) : Prop :=
  ∀ n, st.Structs n ≤ st'.Structs n ∧
    ((st.StructMem n).isSome = true → (st'.StructMem n).isSome = true)

/-- Invariant tying the ghost expansion counter to the cycle guard: a name's
field recursions never outnumber `min` of its occurrence counter and the
configured maximum, and a name that has been entered has a memo. -/
def InvExp (maxRec : Nat) (st : CycleInfo) : Prop :=
  ∀ n, st.expansions n ≤ min (st.Structs n) maxRec ∧
    (1 ≤ st.Structs n → (st.StructMem n).isSome = true)

/-- Embedding of the interface part of the Go `CycleInfo`: the per-interface
occurrence counter and the memo holding the first synthesized
implementing-type declaration. The Go maps keyed by `*ast.InterfaceType`
become maps keyed by an identity string; a declaration is identified by
the implementing type's name (the name of the `TypeSpec` inside the
memoized `GenDecl`, which is all the memo-return branch reads). -/
structure IfaceCycle where
  Interfaces : String → Nat
  InterfaceMem : String → Option String

/-- Fresh interface cycle state. -/
def FreshIfaceCycle : IfaceCycle :=
  { Interfaces := fun _ => 0, InterfaceMem := fun _ => none }

/-- The state update `InterfaceTypeToValExpr` performs before branching:
increment the interface's occurrence counter (line
`input.counter.Interfaces[t]++`), then store the freshly built
implementing-type declaration in the memo when this is the first
encounter (`if !ok { input.counter.InterfaceMem[t] = interfaceGenDecl }`). -/
def IfaceEnter (st : IfaceCycle) (k implName : String) : IfaceCycle :=
  let st1 : IfaceCycle :=
    { st with Interfaces := fun n => if n = k then st.Interfaces n + 1 else st.Interfaces n }
  match st.InterfaceMem k with
  | some _ => st1
  | none => { st1 with InterfaceMem := fun n => if n = k then some implName else st1.InterfaceMem n }

/-- Embedding of `InterfaceTypeToValExpr`. `k` identifies the
`*ast.InterfaceType` node, `emptyMethods` is the `t.Methods.List == nil`
test (answered by the external value policy through `anyVal`), `implName`
the fresh implementing-type name from the identifier generator, and
`bodyGen` abstracts `InterfaceTypeToFuncImpl` (the method-body generation,
which receives the cycle state and returns the produced method
declarations with the evolved state). Returns the value expression, the
produced declarations (the implementing type first, as
`result.Declarations` re-appends `InterfaceGenDecl` before the method
implementations) and the final state. -/
def InterfaceTypeToValExpr (maxRec : Nat) (k : String) (emptyMethods : Bool)
    (anyVal implName : String) (bodyGen : IfaceCycle → List String × IfaceCycle)
    (st : IfaceCycle) : SynExpr × List String × IfaceCycle :=
  if emptyMethods then (.basicVal anyVal, [], st)
  else
    let memOld := st.InterfaceMem k
    let st2 := IfaceEnter st k implName
    if maxRec < st2.Interfaces k ∧ memOld.isSome then
      (.addrOf (.compositeLit (memOld.getD implName) []), [], st2)
    else
      let r := bodyGen st2
      (.addrOf (.compositeLit implName []), implName :: r.1, r.2)

/-- Go expression shapes for the nil stubs: an identifier, a call, and a
parameterless function literal with one result type and a body returning
the listed expressions. -/
inductive GoValExpr where
  | ident (name : String)
  | callExpr (fn : GoValExpr) (args : List GoValExpr)
  | funcLit (resultType : GoValExpr) (returns : List GoValExpr)
deriving Repr

/-- Embedding of `InterfaceNilFunc`: an inline parameterless function literal
whose single result type is the (package-corrected) target type and whose
body returns the literal `nil`, wrapped in a call expression with no
arguments so it is invoked immediately. -/
def InterfaceNilFunc (correctedType : GoValExpr) : GoValExpr :=
  .callExpr (.funcLit correctedType [.ident "nil"]) []

/-- Embedding of `FuncNilFunc`: a call of the (package-corrected) type's
constructor applied to the literal `nil`. -/
def FuncNilFunc (correctedType : GoValExpr) : GoValExpr :=
  .callExpr correctedType [.ident "nil"]

/-- Embedding of the dispatch of `TypeSpecToValExpr` on a named type whose
declaration is found. The probes `ShouldReturnForInterface` and
`ShouldReturnForFunc` (repository code outside src/, each probed on a copy
with a fresh `CycleInfo`) are oracles, as are the results of the three
recursion paths: `structResult` for a struct underlying type,
`recursionResult` for the recursion into any other underlying type, and
`correctedName` for `CorrectTypeExpr` on the declared type name. The
function is total: an ungeneratable interface or function type is answered
with a nil-stub expression, never an error. -/
def TypeSpecToValExpr (isStruct shouldReturnForInterface shouldReturnForFunc isInterface : Bool)
    (correctedName structResult recursionResult : GoValExpr) : GoValExpr :=
  if isStruct then structResult
  else if shouldReturnForInterface then InterfaceNilFunc correctedName
  else if shouldReturnForFunc then FuncNilFunc correctedName
  else if isInterface then recursionResult
  else .callExpr correctedName [recursionResult]

/-- Go's `unicode.IsLower(rune(n.Name[0]))` on a field name (field names in
the Go AST are nonempty; the empty string answers `false`). -/
def isLowerFirst (s : String) : Bool :=
  match s.data with
  | [] => false
  | c :: _ => c.isLower

/-- A struct field as `StructFieldsToKeyValExpr` sees one: the declared name
list (empty for an embedded/unnamed field) and the field's type, abstract
at `α`. -/
structure GoField (α : Type) where
  names : List String
  fieldType : α

/-- Embedding of `StructFieldsToKeyValExpr`'s field-selection logic, iterated
in declared field order. `isRoot` is `g.PackageInfo.IsRoot`, `cantGen` the
`ShouldReturnForFunc` probe on the field type, `unnamedIdent` the name
`GetUnnamedStructIdent` derives for an embedded field, and `valueOf` the
recursive `TypeExprToValExpr` value for a kept field (the cycle-state
threading of that recursion is verified on `SynthList`; it does not change
which fields are kept). An embedded field (empty name list) skips the
lower-case check against its derived name when the package is not the
root package and is then expanded; a named field skips the same lower-case
check and additionally the ungeneratable-function check. -/
def StructFieldsToKeyValExpr {α : Type} (isRoot : Bool) (cantGen : α → Bool)
    (unnamedIdent : α → String) (valueOf : α → String → GoValExpr) :
    List (GoField α) → List (String × GoValExpr)
  | [] => []
  | field :: rest =>
    let unnamedPart : List (String × GoValExpr) :=
      if field.names.isEmpty then
        let n := unnamedIdent field.fieldType
        if ¬ isRoot ∧ isLowerFirst n then []
        else [(n, valueOf field.fieldType n)]
      else []
    let namedPart : List (String × GoValExpr) :=
      field.names.filterMap fun n =>
        if ¬ isRoot ∧ isLowerFirst n then none
        else if cantGen field.fieldType then none
        else some (n, valueOf field.fieldType n)
    unnamedPart ++ namedPart ++
      StructFieldsToKeyValExpr isRoot cantGen unnamedIdent valueOf rest

/-- The selection `StructFieldsToKeyValExpr` applies to one field, written
from the spec sentence as amended: an embedded field is expanded under the
lower-case/package rule on its derived name; a named field is kept under
the lower-case/package rule and only when its type is not an ungeneratable
function. Used to state the amended C8. -/
def specFieldEntries {α : Type} (isRoot : Bool) (cantGen : α → Bool)
    (unnamedIdent : α → String) (valueOf : α → String → GoValExpr)
    (field : GoField α) : List (String × GoValExpr) :=
  if field.names.isEmpty then
    let n := unnamedIdent field.fieldType
    if isRoot ∨ ¬ isLowerFirst n then [(n, valueOf field.fieldType n)] else []
  else
    field.names.filterMap fun n =>
      if (isRoot ∨ ¬ isLowerFirst n) ∧ ¬ cantGen field.fieldType then
        some (n, valueOf field.fieldType n)
      else none

/-- Modelled from the spec: `NewDuplMapChecker`/`IsDuplExpr` are repository
code outside src/. Per the spec the checker discards "an entry whose key
expression exact-matches an already-accepted key", so it is a set of the
printed key expressions seen so far, with exact string matching. The
synthesized key and value expressions for the i-th loop iteration are
abstracted into the streams `keyGen` and `valGen` (printed form). -/
def MapLoop (keyGen valGen : Nat → String) : Nat → Nat → List String →
    List (String × String)
  | 0, _, _ => []
  | n + 1, i, seen =>
    let k := keyGen i
    if seen.contains k then MapLoop keyGen valGen n (i + 1) seen
    else (k, valGen i) :: MapLoop keyGen valGen n (i + 1) (seen ++ [k])

/-- Embedding of `MapExprToValExpr`'s entry loop: the policy picks `mapLen`;
each iteration synthesizes a key, discards the iteration when the key
exact-matches an already-accepted key (the `continue` happens before the
value synthesis), and otherwise accepts the key/value entry. -/
def MapExprToValExpr (mapLen : Nat) (keyGen valGen : Nat → String) :
    List (String × String) :=
  MapLoop keyGen valGen mapLen 0 []

/-- An element of the `printIdents` expression list `FuncDeclToExprStmt`
receives: an `*ast.Ident` with its name, or any other expression shape. -/
inductive PrintExpr where
  | ident (name : String)
  | otherExpr
deriving Repr, DecidableEq

/-- The Go token chosen for the result-capturing assignment. -/
inductive GoTok where
  | define
  | assign
deriving Repr, DecidableEq

/-- The result-capturing assignment statement `FuncDeclToExprStmt` builds:
left-hand identifier list, token, and the call expression (kept abstract
at `κ`) as its right-hand side. -/
structure PrintAssign (κ : Type) where
  Lhs : List PrintExpr
  Tok : GoTok
  Rhs : κ

/-- Embedding of `FuncDeclToExprStmt` after the call expression `call` has
been assembled from receiver and parameter identifiers: returns the bare
call statement and the optional result-capturing assignment. The token is
`=` when no listed identifier has a name other than `_`, `:=` otherwise,
and an empty identifier list yields no assignment at all. -/
def FuncDeclToExprStmt {κ : Type} (call : κ) (printIdents : List PrintExpr) :
    κ × Option (PrintAssign κ) :=
  let shouldUseAssign := printIdents.all fun e =>
    match e with
    | .ident n => n = "_"
    | .otherExpr => true
  let assignToken := if shouldUseAssign then GoTok.assign else GoTok.define
  let resPrint : Option (PrintAssign κ) :=
    if printIdents.length = 0 then none
    else some { Lhs := printIdents, Tok := assignToken, Rhs := call }
  (call, resPrint)

/-- The fragment of `FuncDeclToTestCase` that fills `FuncPrintStmt`: the
field keeps its zero value `""` when `funcPrintStmt` is nil, and the
pretty-printed statement otherwise. -/
def FuncPrintStmtField {κ : Type} (prettyPrint : PrintAssign κ → String)
    (funcPrintStmt : Option (PrintAssign κ)) : String :=
  match funcPrintStmt with
  | none => ""
  | some s => prettyPrint s

end Gen

/-! Theorems for the determinism validator and the capture decoder. -/

namespace Gen

/-- Helper: the element-wise comparison loop finds no mismatch exactly when
every corresponding pair of the two equal-length lists is identical. -/
theorem anyPairDiffers_false_iff (as bs : List String) (h : as.length = bs.length) :
    anyPairDiffers as bs = false ↔
      ∀ i, i < as.length → as.getD i "" = bs.getD i "" := by
  induction as generalizing bs with
  | nil =>
    cases bs with
    | nil => simp [anyPairDiffers]
    | cons b bs => simp at h
  | cons a as ih =>
    cases bs with
    | nil => simp at h
    | cons b bs =>
      have hlen : as.length = bs.length := by simpa using h
      constructor
      · intro hf i hi
        by_cases hab : a = b
        · have hf' : anyPairDiffers as bs = false := by
            simpa [anyPairDiffers, hab] using hf
          match i with
          | 0 => simpa using hab
          | Nat.succ j =>
            exact (ih bs hlen).mp hf' j (by simpa using hi)
        · simp [anyPairDiffers, hab] at hf
      · intro hp
        have hab : a = b := by simpa using hp 0 (by simp)
        have hrest : ∀ i, i < as.length → as.getD i "" = bs.getD i "" := by
          intro i hi
          simpa using hp (i + 1) (by simpa using Nat.succ_lt_succ hi)
        simpa [anyPairDiffers, hab] using (ih bs hlen).mpr hrest

/-- C2: the determinism validator `SetIsValid` accepts a test case — returns
`true` and sets `IsValid` to `true` — if and only if the two captured
statement lists `AssertStmts` and `SecondRun` have equal length and every
corresponding pair of statements is textually identical; any mismatch
(including a length mismatch) returns `false` and sets `IsValid` to
`false`. -/
theorem setIsValid_accepts_iff (r : RunTimeInfo) :
    ((RunTimeInfo.SetIsValid r).1 = true ↔
      (r.AssertStmts.length = r.SecondRun.length ∧
        ∀ i, i < r.AssertStmts.length →
          r.AssertStmts.getD i "" = r.SecondRun.getD i "")) ∧
    (RunTimeInfo.SetIsValid r).2.IsValid = (RunTimeInfo.SetIsValid r).1 := by
  have key : (RunTimeInfo.SetIsValid r).1 = true ↔
      (r.AssertStmts.length = r.SecondRun.length ∧
        anyPairDiffers r.AssertStmts r.SecondRun = false) := by
    unfold RunTimeInfo.SetIsValid
    by_cases hlen : r.AssertStmts.length = r.SecondRun.length <;>
      by_cases hd : anyPairDiffers r.AssertStmts r.SecondRun <;>
        simp_all
  refine ⟨?_, ?_⟩
  · rw [key]
    constructor
    · rintro ⟨hl, hf⟩
      exact ⟨hl, (anyPairDiffers_false_iff r.AssertStmts r.SecondRun hl).mp hf⟩
    · rintro ⟨hl, hp⟩
      exact ⟨hl, (anyPairDiffers_false_iff r.AssertStmts r.SecondRun hl).mpr hp⟩
  · unfold RunTimeInfo.SetIsValid
    by_cases hlen : r.AssertStmts.length = r.SecondRun.length <;>
      by_cases hd : anyPairDiffers r.AssertStmts r.SecondRun <;>
        simp [hlen, hd]

end Gen

namespace Runtime

/-- C4: during one decoding run over a shared `mem` set, a non-nil pointer
capture node emits a declaring assignment (`:=` of the child's variable
name to the dereference of the pointer's variable name) when its target
name has no declaration marker in `mem` yet, and a plain re-assignment
(`=`) once the marker is there; in particular decoding the scenario-B
capture shape a second time for a different variable with the same name
`p` yields `y = *p` rather than a second `y := *p` declaration. -/
theorem assertStmts_pointer_define_then_reassign :
    (∀ (vn mkt val arr : String) (c : Output) (replacements : List Replacement)
        (tc : TypeCorrections) (res : List Stmt) (mem : List String),
      val ≠ "nil" →
      AssertStmts (.mk "pointer" vn mkt val arr (some c)) replacements tc res mem =
        if Contains mem (c.varName ++ " := *" ++ vn) then
          AssertStmts c replacements tc
            (res ++ [.assignStmt .assign c.varName ("*" ++ vn)]) mem
        else
          AssertStmts c replacements tc
            (res ++ [.assignStmt .define c.varName ("*" ++ vn)])
            (mem ++ [c.varName ++ " :="])) ∧
    AssertStmts (.mk "pointer" "p" "" "0xdead" "" (some (.mk "int" "y" "" "7" "" none)))
        [] ⟨"", ""⟩ [] [] =
      ([.assignStmt .define "y" "*p", .assertStmt .equalValues "int(7)" "y"], ["y :="]) ∧
    AssertStmts (.mk "pointer" "p" "" "0xdead" "" (some (.mk "int" "y" "" "7" "" none)))
        [] ⟨"", ""⟩ [] ["y :="] =
      ([.assignStmt .assign "y" "*p", .assertStmt .equalValues "int(7)" "y"], ["y :="]) := by
  refine ⟨?_, by decide, by decide⟩
  intro vn mkt val arr c replacements tc res mem hval
  by_cases hc : Contains mem (c.varName ++ " := *" ++ vn) <;>
    simp [AssertStmts, hval, hc]

/-- C7: a pointer capture node whose captured value is the nil sentinel
`"nil"` makes decoding continue into the child with no dereference
assignment emitted for that node, and a nil-valued pointer node that is the
terminal leaf (no child) yields exactly one "value is nil" assertion on the
node's (replacement-substituted) variable name, appended after the
previously accumulated statements. -/
theorem assertStmts_nil_pointer :
    (∀ (vn mkt arr : String) (c : Output) (replacements : List Replacement)
        (tc : TypeCorrections) (res : List Stmt) (mem : List String),
      AssertStmts (.mk "pointer" vn mkt "nil" arr (some c)) replacements tc res mem =
        AssertStmts c replacements tc res mem) ∧
    (∀ (vn mkt arr : String) (replacements : List Replacement)
        (tc : TypeCorrections) (res : List Stmt) (mem : List String),
      AssertStmts (.mk "pointer" vn mkt "nil" arr none) replacements tc res mem =
        (res.map (fun s => replacements.foldl (fun s r => Stmt.Replace s r.key r.val) s) ++
          [.assertStmt .isNil (replacements.foldl (fun v r => v.replace r.key r.val) vn) ""],
         mem)) ∧
    AssertStmts (.mk "pointer" "p" "" "nil" "" none) [] ⟨"", ""⟩ [] [] =
      ([.assertStmt .isNil "p" ""], []) := by
  refine ⟨?_, ?_, by decide⟩
  · intro vn mkt arr c replacements tc res mem
    simp [AssertStmts]
  · intro vn mkt arr replacements tc res mem
    simp [AssertStmts, CreateAssertStmts, numericTypes,
      Output.type, Output.varName, Output.val]

/-- C9: a line that is not well-formed JSON for the `Output` capture shape
(`json.Unmarshal` fails, leaving the zero `Output`) produces zero printed
statements and leaves the shared `mem` untouched; `ParseLine` is total, so
no panic and no error value reaches the caller. -/
theorem parseLine_malformed (printStmt : Stmt → String) (mem : List String) :
    ParseLine printStmt none mem = ([], mem) := by
  simp [ParseLine, AssertStmts, CreateAssertStmts, numericTypes, Output.zero,
    Output.type, Output.varName, Output.val]

end Runtime

/-! Support lemmas for the cycle guard, leading to the termination bound. -/

namespace Gen

/-- Replicated elements have joint size `n * (size + 1)`. -/
theorem sizeL_replicate (arrLen n : Nat) (t : TypeExpr) :
    sizeL arrLen (List.replicate n t) = n * (sizeT arrLen t + 1) := by
  induction n with
  | zero => simp [sizeL]
  | succ m ih => simp [List.replicate, sizeL, ih, Nat.succ_mul]; omega

/-- A successful environment lookup is membership. -/
theorem lookupEnv_mem : ∀ (env : Env) (s : String) (fs : List TypeExpr),
    lookupEnv env s = some fs → (s, fs) ∈ env := by
  intro env
  induction env with
  | nil => intro s fs h; simp [lookupEnv] at h
  | cons p rest ih =>
    intro s fs h
    obtain ⟨n, l⟩ := p
    by_cases hn : n = s
    · subst hn
      simp [lookupEnv] at h
      simp [h]
    · simp [lookupEnv, hn] at h
      exact List.mem_cons_of_mem _ (ih s fs h)

/-- `memoIfAbsent` leaves the counters alone. -/
theorem structs_memoIfAbsent (st : CycleInfo) (s : String) (e : SynExpr) :
    (st.memoIfAbsent s e).Structs = st.Structs := by
  unfold CycleInfo.memoIfAbsent
  cases st.StructMem s <;> rfl

/-- `bump` leaves the memos alone. -/
theorem structMem_bump (st : CycleInfo) (s : String) :
    (st.bump s).StructMem = st.StructMem := rfl

/-- The counter after entering a struct. -/
theorem structs_structEnter (st : CycleInfo) (s : String) :
    (StructEnter st s).Structs s = st.Structs s + 1 := by
  unfold StructEnter CycleInfo.bump
  simp [structs_memoIfAbsent]

/-- Entering a struct makes the memo present. -/
theorem structMem_structEnter_isSome (st : CycleInfo) (s : String) :
    ((StructEnter st s).StructMem s).isSome = true := by
  unfold StructEnter
  rw [structMem_bump]
  unfold CycleInfo.memoIfAbsent
  cases h : st.StructMem s <;> simp [h]

/-- Evolution is reflexive. -/
theorem evolves_refl (st : CycleInfo) : Evolves st st :=
  fun _ => ⟨Nat.le_refl _, id⟩

/-- Evolution is transitive. -/
theorem evolves_trans {a b c : CycleInfo} (h1 : Evolves a b) (h2 : Evolves b c) :
    Evolves a c :=
  fun n => ⟨Nat.le_trans (h1 n).1 (h2 n).1, fun h => (h2 n).2 ((h1 n).2 h)⟩

/-- Counting up evolves the state. -/
theorem evolves_bump (st : CycleInfo) (s : String) : Evolves st (st.bump s) := by
  intro n
  constructor
  · by_cases hn : n = s <;> simp [CycleInfo.bump, hn]
  · intro h; simpa [structMem_bump] using h

/-- Writing an absent memo evolves the state. -/
theorem evolves_memoIfAbsent (st : CycleInfo) (s : String) (e : SynExpr) :
    Evolves st (st.memoIfAbsent s e) := by
  intro n
  unfold CycleInfo.memoIfAbsent
  cases h : st.StructMem s with
  | some v => exact ⟨Nat.le_refl _, id⟩
  | none =>
    refine ⟨Nat.le_refl _, ?_⟩
    intro hn
    by_cases hns : n = s <;> simp [hns]
    exact hn

/-- The ghost counter does not affect evolution. -/
theorem evolves_expand (st : CycleInfo) (s : String) : Evolves st (st.expand s) :=
  fun _ => ⟨Nat.le_refl _, id⟩

/-- Entering a struct evolves the state. -/
theorem evolves_structEnter (st : CycleInfo) (s : String) :
    Evolves st (StructEnter st s) :=
  evolves_trans (evolves_memoIfAbsent st s _) (evolves_bump _ s)

/-- A name's remaining budget never grows along an evolution. -/
theorem weight_le_of_evolves {st st' : CycleInfo} (h : Evolves st st')
    (maxRec : Nat) (n : String) :
    weight maxRec st' n ≤ weight maxRec st n := by
  unfold weight
  obtain ⟨hc, hm⟩ := h n
  by_cases h1 : (st.StructMem n).isSome = true
  · rw [if_pos h1, if_pos (hm h1)]
    exact Nat.sub_le_sub_left (min_le_min hc (Nat.le_refl _)) _
  · rw [if_neg h1]
    by_cases h2 : (st'.StructMem n).isSome = true
    · rw [if_pos h2]
      have := Nat.sub_le (maxRec + 1) (min (st'.Structs n) (maxRec + 1))
      omega
    · rw [if_neg h2]

/-- The total budget never grows along an evolution. -/
theorem budget_le_of_evolves {st st' : CycleInfo} (h : Evolves st st')
    (maxRec : Nat) (keys : List String) :
    budget maxRec keys st' ≤ budget maxRec keys st :=
  List.sum_le_sum (fun i _ => weight_le_of_evolves h maxRec i)

/-- A pointwise-dominated sum with one strictly smaller member is strictly
smaller. -/
theorem sum_lt_of_mem {s : String} (f g : String → Nat) :
    ∀ (keys : List String), s ∈ keys → (∀ n, f n ≤ g n) → f s < g s →
      (keys.map f).sum < (keys.map g).sum := by
  intro keys
  induction keys with
  | nil => intro h; simp at h
  | cons k ks ih =>
    intro hmem hle hlt
    simp only [List.map_cons, List.sum_cons]
    rcases List.mem_cons.mp hmem with hk | hk
    · subst hk
      have : (ks.map f).sum ≤ (ks.map g).sum := List.sum_le_sum (fun i _ => hle i)
      omega
    · have h1 := hle k
      have h2 := ih hk hle hlt
      omega

/-- When a struct synthesis proceeds into its fields (the guard did not fire),
its name's budget strictly shrinks: either the counter was still within
the maximum with the memo present, or this was the very first encounter
and the memo write pays for it. -/
theorem weight_structEnter_lt (maxRec : Nat) (st : CycleInfo) (s : String)
    (hcond : ¬(maxRec < (StructEnter st s).Structs s ∧ (st.StructMem s).isSome = true)) :
    weight maxRec (StructEnter st s) s < weight maxRec st s := by
  have hc : (StructEnter st s).Structs s = st.Structs s + 1 := structs_structEnter st s
  have hm : ((StructEnter st s).StructMem s).isSome = true := structMem_structEnter_isSome st s
  unfold weight
  rw [if_pos hm]
  by_cases h1 : (st.StructMem s).isSome = true
  · rw [if_pos h1]
    have hle : st.Structs s + 1 ≤ maxRec := by
      rcases Nat.lt_or_ge maxRec (st.Structs s + 1) with hlt | hge
      · exact absurd ⟨by rw [hc]; exact hlt, h1⟩ hcond
      · exact hge
    rw [hc]
    have h2 : min (st.Structs s) (maxRec + 1) = st.Structs s := min_eq_left (by omega)
    have h3 : min (st.Structs s + 1) (maxRec + 1) = st.Structs s + 1 := min_eq_left (by omega)
    rw [h2, h3]
    omega
  · rw [if_neg h1]
    have := Nat.sub_le (maxRec + 1) (min ((StructEnter st s).Structs s) (maxRec + 1))
    omega

/-- Along any successful run of the fueled synthesizer, the cycle state only
evolves: counters grow and memos persist. -/
theorem synth_evolves (env : Env) (maxRec arrLen : Nat) : ∀ fuel : Nat,
    (∀ e st r st', TypeExprToValExpr env maxRec arrLen fuel e st = some (r, st') →
      Evolves st st') ∧
    (∀ l st rs st', SynthList env maxRec arrLen fuel l st = some (rs, st') →
      Evolves st st') := by
  intro fuel
  induction fuel with
  | zero =>
    constructor
    · intro e st r st' h
      simp [TypeExprToValExpr] at h
    · intro l st rs st' h
      simp [SynthList] at h
  | succ f ih =>
    obtain ⟨ihT, ihL⟩ := ih
    constructor
    · intro e st r st' h
      match e with
      | .basic s =>
        simp [TypeExprToValExpr] at h
        obtain ⟨-, h2⟩ := h
        subst h2
        exact evolves_refl st
      | .star t =>
        simp only [TypeExprToValExpr] at h
        cases hrec : TypeExprToValExpr env maxRec arrLen f t st with
        | none => simp [hrec] at h
        | some p =>
          obtain ⟨e1, st1⟩ := p
          simp [hrec] at h
          obtain ⟨-, h2⟩ := h
          subst h2
          exact ihT t st e1 st1 hrec
      | .array t =>
        simp only [TypeExprToValExpr] at h
        cases hrec : SynthList env maxRec arrLen f (List.replicate arrLen t) st with
        | none => simp [hrec] at h
        | some p =>
          obtain ⟨es, st1⟩ := p
          simp [hrec] at h
          obtain ⟨-, h2⟩ := h
          subst h2
          exact ihL _ st es st1 hrec
      | .named s =>
        simp only [TypeExprToValExpr] at h
        cases hlook : lookupEnv env s with
        | none =>
          simp [hlook] at h
          obtain ⟨-, h2⟩ := h
          subst h2
          exact evolves_refl st
        | some fields =>
          simp only [hlook] at h
          by_cases hcond : maxRec < (StructEnter st s).Structs s ∧
              (st.StructMem s).isSome = true
          · rw [if_pos hcond] at h
            simp at h
            obtain ⟨-, h2⟩ := h
            subst h2
            exact evolves_structEnter st s
          · rw [if_neg hcond] at h
            cases hrec : SynthList env maxRec arrLen f fields ((StructEnter st s).expand s) with
            | none => simp [hrec] at h
            | some q =>
              obtain ⟨es, st2⟩ := q
              simp [hrec] at h
              obtain ⟨-, h2⟩ := h
              subst h2
              exact evolves_trans
                (evolves_trans (evolves_structEnter st s) (evolves_expand _ s))
                (ihL fields _ es st2 hrec)
    · intro l st rs st' h
      match l with
      | [] =>
        simp [SynthList] at h
        obtain ⟨-, h2⟩ := h
        subst h2
        exact evolves_refl st
      | t :: ts =>
        simp only [SynthList] at h
        cases hrec1 : TypeExprToValExpr env maxRec arrLen f t st with
        | none => simp [hrec1] at h
        | some p =>
          obtain ⟨e1, st1⟩ := p
          simp only [hrec1] at h
          cases hrec2 : SynthList env maxRec arrLen f ts st1 with
          | none => simp [hrec2] at h
          | some q =>
            obtain ⟨es, st2⟩ := q
            simp [hrec2] at h
            obtain ⟨-, h2⟩ := h
            subst h2
            exact evolves_trans (ihT t st e1 st1 hrec1) (ihL ts st1 es st2 hrec2)

/-- The total budget strictly shrinks whenever a struct of the environment is
entered and the guard lets the synthesis recurse into its fields. -/
theorem budget_enter_lt (maxRec : Nat) (keys : List String) (st : CycleInfo)
    (s : String) (hmem : s ∈ keys)
    (hcond : ¬(maxRec < (StructEnter st s).Structs s ∧ (st.StructMem s).isSome = true)) :
    budget maxRec keys ((StructEnter st s).expand s) < budget maxRec keys st := by
  have hexp : budget maxRec keys ((StructEnter st s).expand s) =
      budget maxRec keys (StructEnter st s) := rfl
  rw [hexp]
  unfold budget
  exact sum_lt_of_mem _ _ _ hmem
    (fun n => weight_le_of_evolves (evolves_structEnter st s) maxRec n)
    (weight_structEnter_lt maxRec st s hcond)

/-- Fuel sufficiency: with fuel above the budget-weighted measure, the fueled
synthesizer answers. `K` strictly bounds the size of the start expression
and of every declared field list of the environment. -/
theorem synth_total (env : Env) (maxRec arrLen K : Nat)
    (hK : ∀ p ∈ env, sizeL arrLen p.2 < K) : ∀ fuel : Nat,
    (∀ e st, sizeT arrLen e < K →
      budget maxRec (env.map Prod.fst) st * K + sizeT arrLen e < fuel →
      (TypeExprToValExpr env maxRec arrLen fuel e st).isSome = true) ∧
    (∀ l st, sizeL arrLen l < K →
      budget maxRec (env.map Prod.fst) st * K + sizeL arrLen l < fuel →
      (SynthList env maxRec arrLen fuel l st).isSome = true) := by
  intro fuel
  induction fuel with
  | zero =>
    constructor <;> (intro _ _ _ hm; omega)
  | succ f ih =>
    obtain ⟨ihT, ihL⟩ := ih
    constructor
    · intro e st hsize hm
      match e with
      | .basic s => simp [TypeExprToValExpr]
      | .star t =>
        have hs : sizeT arrLen t < K := by simp [sizeT] at hsize; omega
        have hm' : budget maxRec (env.map Prod.fst) st * K + sizeT arrLen t < f := by
          simp [sizeT] at hm; omega
        have hrecSome := ihT t st hs hm'
        simp only [TypeExprToValExpr]
        cases hrec : TypeExprToValExpr env maxRec arrLen f t st with
        | none => rw [hrec] at hrecSome; simp at hrecSome
        | some p =>
          obtain ⟨e1, st1⟩ := p
          simp
      | .array t =>
        have hrep : sizeL arrLen (List.replicate arrLen t) = arrLen * (sizeT arrLen t + 1) :=
          sizeL_replicate arrLen arrLen t
        have hs : sizeL arrLen (List.replicate arrLen t) < K := by
          rw [hrep]; simp [sizeT] at hsize; omega
        have hm' : budget maxRec (env.map Prod.fst) st * K +
            sizeL arrLen (List.replicate arrLen t) < f := by
          rw [hrep]; simp [sizeT] at hm; omega
        have hrecSome := ihL _ st hs hm'
        simp only [TypeExprToValExpr]
        cases hrec : SynthList env maxRec arrLen f (List.replicate arrLen t) st with
        | none => rw [hrec] at hrecSome; simp at hrecSome
        | some p =>
          obtain ⟨es, st1⟩ := p
          simp
      | .named s =>
        simp only [TypeExprToValExpr]
        cases hlook : lookupEnv env s with
        | none => simp
        | some fields =>
          simp only
          by_cases hcond : maxRec < (StructEnter st s).Structs s ∧
              (st.StructMem s).isSome = true
          · rw [if_pos hcond]; simp
          · rw [if_neg hcond]
            have hmem := lookupEnv_mem env s fields hlook
            have hkey : s ∈ env.map Prod.fst := List.mem_map_of_mem Prod.fst hmem
            have hflds : sizeL arrLen fields < K := hK (s, fields) hmem
            have hblt : budget maxRec (env.map Prod.fst) ((StructEnter st s).expand s) <
                budget maxRec (env.map Prod.fst) st :=
              budget_enter_lt maxRec _ st s hkey hcond
            have hm' : budget maxRec (env.map Prod.fst) ((StructEnter st s).expand s) * K +
                sizeL arrLen fields < f := by
              have h1 : (budget maxRec (env.map Prod.fst) ((StructEnter st s).expand s) + 1) * K ≤
                  budget maxRec (env.map Prod.fst) st * K :=
                Nat.mul_le_mul_right K hblt
              rw [Nat.succ_mul] at h1
              simp [sizeT] at hm
              omega
            have hrecSome := ihL fields _ hflds hm'
            cases hrec : SynthList env maxRec arrLen f fields ((StructEnter st s).expand s) with
            | none => rw [hrec] at hrecSome; simp at hrecSome
            | some q =>
              obtain ⟨es, st2⟩ := q
              simp
    · intro l st hsize hm
      match l with
      | [] => simp [SynthList]
      | t :: ts =>
        have hs1 : sizeT arrLen t < K := by simp [sizeL] at hsize; omega
        have hm1 : budget maxRec (env.map Prod.fst) st * K + sizeT arrLen t < f := by
          simp [sizeL] at hm; omega
        have h1 := ihT t st hs1 hm1
        simp only [SynthList]
        cases hrec1 : TypeExprToValExpr env maxRec arrLen f t st with
        | none => rw [hrec1] at h1; simp at h1
        | some p =>
          obtain ⟨e1, st1⟩ := p
          have hev : Evolves st st1 :=
            (synth_evolves env maxRec arrLen f).1 t st e1 st1 hrec1
          have hble : budget maxRec (env.map Prod.fst) st1 ≤
              budget maxRec (env.map Prod.fst) st :=
            budget_le_of_evolves hev maxRec _
          have hs2 : sizeL arrLen ts < K := by simp [sizeL] at hsize; omega
          have hm2 : budget maxRec (env.map Prod.fst) st1 * K + sizeL arrLen ts < f := by
            have hmul : budget maxRec (env.map Prod.fst) st1 * K ≤
                budget maxRec (env.map Prod.fst) st * K :=
              Nat.mul_le_mul_right K hble
            simp [sizeL] at hm
            omega
          have h2 := ihL ts st1 hs2 hm2
          simp only
          cases hrec2 : SynthList env maxRec arrLen f ts st1 with
          | none => rw [hrec2] at h2; simp at h2
          | some q =>
            obtain ⟨es, st2⟩ := q
            simp

/-- Entering a struct does not touch the counter of another name. -/
theorem structEnter_structs_ne (st : CycleInfo) (s n : String) (h : n ≠ s) :
    (StructEnter st s).Structs n = st.Structs n := by
  unfold StructEnter CycleInfo.bump
  simp [structs_memoIfAbsent, h]

/-- Entering a struct does not touch the memo of another name. -/
theorem structEnter_mem_ne (st : CycleInfo) (s n : String) (h : n ≠ s) :
    (StructEnter st s).StructMem n = st.StructMem n := by
  unfold StructEnter
  rw [structMem_bump]
  unfold CycleInfo.memoIfAbsent
  cases hm : st.StructMem s <;> simp [h]

/-- Entering a struct does not touch the ghost counters. -/
theorem structEnter_expansions (st : CycleInfo) (s : String) :
    (StructEnter st s).expansions = st.expansions := by
  unfold StructEnter CycleInfo.bump CycleInfo.memoIfAbsent
  cases hm : st.StructMem s <;> rfl

/-- The ghost step only raises its own name's count. -/
theorem expand_expansions_self (st : CycleInfo) (s : String) :
    (st.expand s).expansions s = st.expansions s + 1 := by
  simp [CycleInfo.expand]

/-- The ghost step leaves other names' counts alone. -/
theorem expand_expansions_ne (st : CycleInfo) (s n : String) (h : n ≠ s) :
    (st.expand s).expansions n = st.expansions n := by
  simp [CycleInfo.expand, h]

/-- Entering a struct without recursing (the memo-return branch) preserves the
expansion invariant. -/
theorem invExp_enter (maxRec : Nat) (st : CycleInfo) (s : String)
    (hInv : InvExp maxRec st) : InvExp maxRec (StructEnter st s) := by
  intro n
  by_cases hn : n = s
  · subst hn
    constructor
    · have h1 := (hInv n).1
      rw [congrFun (structEnter_expansions st n) n, structs_structEnter]
      have h2 : min (st.Structs n) maxRec ≤ min (st.Structs n + 1) maxRec :=
        min_le_min (Nat.le_succ _) (Nat.le_refl _)
      omega
    · intro
      exact structMem_structEnter_isSome st n
  · rw [congrFun (structEnter_expansions st s) n, structEnter_structs_ne st s n hn,
      structEnter_mem_ne st s n hn]
    exact hInv n

/-- Entering a struct and recursing into its fields (the guard did not fire)
preserves the expansion invariant: the ghost increment stays within the
configured maximum. -/
theorem invExp_enter_expand (maxRec : Nat) (st : CycleInfo) (s : String)
    (hmax : 1 ≤ maxRec) (hInv : InvExp maxRec st)
    (hcond : ¬(maxRec < (StructEnter st s).Structs s ∧ (st.StructMem s).isSome = true)) :
    InvExp maxRec ((StructEnter st s).expand s) := by
  have henter := invExp_enter maxRec st s hInv
  intro n
  by_cases hn : n = s
  · subst hn
    constructor
    · rw [expand_expansions_self, congrFun (structEnter_expansions st n) n]
      have hstep : ((StructEnter st n).expand n).Structs n = st.Structs n + 1 := by
        have : ((StructEnter st n).expand n).Structs n = (StructEnter st n).Structs n := rfl
        rw [this, structs_structEnter]
      rw [hstep]
      by_cases hms : (st.StructMem n).isSome = true
      · have hle : st.Structs n + 1 ≤ maxRec := by
          rcases Nat.lt_or_ge maxRec (st.Structs n + 1) with hlt | hge
          · exact absurd ⟨by rw [structs_structEnter]; exact hlt, hms⟩ hcond
          · exact hge
        have h1 := (hInv n).1
        have h2 : min (st.Structs n) maxRec = st.Structs n := min_eq_left (by omega)
        have h3 : min (st.Structs n + 1) maxRec = st.Structs n + 1 := min_eq_left hle
        omega
      · have hc0 : st.Structs n = 0 := by
          by_contra hne
          exact hms ((hInv n).2 (by omega))
        have h1 := (hInv n).1
        have h3 : min (0 + 1) maxRec = 1 := min_eq_left hmax
        rw [hc0] at h1
        simp at h1
        rw [hc0]
        omega
    · intro
      have : ((StructEnter st n).expand n).StructMem n = (StructEnter st n).StructMem n := rfl
      rw [this]
      exact structMem_structEnter_isSome st n
  · have he : ((StructEnter st s).expand s).Structs n = (StructEnter st s).Structs n := rfl
    have hm : ((StructEnter st s).expand s).StructMem n = (StructEnter st s).StructMem n := rfl
    rw [expand_expansions_ne _ s n hn, he, hm]
    exact henter n

/-- The expansion invariant is preserved along any successful run of the
fueled synthesizer (for a configured maximum of at least one). -/
theorem synth_inv (env : Env) (maxRec arrLen : Nat) (hmax : 1 ≤ maxRec) : ∀ fuel : Nat,
    (∀ e st r st', InvExp maxRec st →
      TypeExprToValExpr env maxRec arrLen fuel e st = some (r, st') → InvExp maxRec st') ∧
    (∀ l st rs st', InvExp maxRec st →
      SynthList env maxRec arrLen fuel l st = some (rs, st') → InvExp maxRec st') := by
  intro fuel
  induction fuel with
  | zero =>
    constructor
    · intro e st r st' _ h
      simp [TypeExprToValExpr] at h
    · intro l st rs st' _ h
      simp [SynthList] at h
  | succ f ih =>
    obtain ⟨ihT, ihL⟩ := ih
    constructor
    · intro e st r st' hInv h
      match e with
      | .basic s =>
        simp [TypeExprToValExpr] at h
        obtain ⟨-, h2⟩ := h
        subst h2
        exact hInv
      | .star t =>
        simp only [TypeExprToValExpr] at h
        cases hrec : TypeExprToValExpr env maxRec arrLen f t st with
        | none => simp [hrec] at h
        | some p =>
          obtain ⟨e1, st1⟩ := p
          simp [hrec] at h
          obtain ⟨-, h2⟩ := h
          subst h2
          exact ihT t st e1 st1 hInv hrec
      | .array t =>
        simp only [TypeExprToValExpr] at h
        cases hrec : SynthList env maxRec arrLen f (List.replicate arrLen t) st with
        | none => simp [hrec] at h
        | some p =>
          obtain ⟨es, st1⟩ := p
          simp [hrec] at h
          obtain ⟨-, h2⟩ := h
          subst h2
          exact ihL _ st es st1 hInv hrec
      | .named s =>
        simp only [TypeExprToValExpr] at h
        cases hlook : lookupEnv env s with
        | none =>
          simp [hlook] at h
          obtain ⟨-, h2⟩ := h
          subst h2
          exact hInv
        | some fields =>
          simp only [hlook] at h
          by_cases hcond : maxRec < (StructEnter st s).Structs s ∧
              (st.StructMem s).isSome = true
          · rw [if_pos hcond] at h
            simp at h
            obtain ⟨-, h2⟩ := h
            subst h2
            exact invExp_enter maxRec st s hInv
          · rw [if_neg hcond] at h
            cases hrec : SynthList env maxRec arrLen f fields ((StructEnter st s).expand s) with
            | none => simp [hrec] at h
            | some q =>
              obtain ⟨es, st2⟩ := q
              simp [hrec] at h
              obtain ⟨-, h2⟩ := h
              subst h2
              exact ihL fields _ es st2
                (invExp_enter_expand maxRec st s hmax hInv hcond) hrec
    · intro l st rs st' hInv h
      match l with
      | [] =>
        simp [SynthList] at h
        obtain ⟨-, h2⟩ := h
        subst h2
        exact hInv
      | t :: ts =>
        simp only [SynthList] at h
        cases hrec1 : TypeExprToValExpr env maxRec arrLen f t st with
        | none => simp [hrec1] at h
        | some p =>
          obtain ⟨e1, st1⟩ := p
          simp only [hrec1] at h
          cases hrec2 : SynthList env maxRec arrLen f ts st1 with
          | none => simp [hrec2] at h
          | some q =>
            obtain ⟨es, st2⟩ := q
            simp [hrec2] at h
            obtain ⟨-, h2⟩ := h
            subst h2
            exact ihL ts st1 es st2 (ihT t st e1 st1 hInv hrec1) hrec2

/-- C1: value synthesis over a self- or mutually-referential struct graph
terminates, and once a struct name's occurrence counter in the shared
`CycleInfo` exceeds the configured maximum while a memoized skeleton
exists, the synthesis returns that memoized bare composite literal
immediately instead of recursing into the fields; consequently, the number
of field expansions of any struct name over the whole synthesis — ghost
counter `expansions` — is bounded by the configured maximum, regardless of
graph depth or fan-out (`suffFuel` is the computed sufficient step
budget). -/
theorem structExprToValExpr_recursion_bounded (env : Env) (maxRec arrLen : Nat)
    (e : TypeExpr) (hmax : 1 ≤ maxRec) :
    (∀ (fuel : Nat) (st : CycleInfo) (s : String) (sk : SynExpr)
        (fields : List TypeExpr),
      lookupEnv env s = some fields → st.StructMem s = some sk →
      maxRec < st.Structs s + 1 →
      TypeExprToValExpr env maxRec arrLen (fuel + 1) (.named s) st =
        some (sk, StructEnter st s)) ∧
    ∃ p : SynExpr × CycleInfo,
      TypeExprToValExpr env maxRec arrLen (suffFuel env maxRec arrLen e) e
        FreshCycleInfo = some p ∧
      ∀ n, p.2.expansions n ≤ maxRec := by
  constructor
  · intro fuel st s sk fields hlook hmem hgt
    have hcond : maxRec < (StructEnter st s).Structs s ∧
        (st.StructMem s).isSome = true :=
      ⟨by rw [structs_structEnter]; exact hgt, by rw [hmem]; rfl⟩
    simp only [TypeExprToValExpr, hlook]
    rw [if_pos hcond, hmem]
    rfl
  · have hK : ∀ p ∈ env, sizeL arrLen p.2 <
        sizeT arrLen e + envSizeSum arrLen env + 1 := by
      intro p hp
      have hle : sizeL arrLen p.2 + 1 ≤ (env.map (fun q => sizeL arrLen q.2 + 1)).sum :=
        List.single_le_sum (fun _ _ => Nat.zero_le _) _
          (List.mem_map_of_mem (fun q => sizeL arrLen q.2 + 1) hp)
      have hsum : envSizeSum arrLen env = (env.map (fun q => sizeL arrLen q.2 + 1)).sum := rfl
      omega
    have hsz : sizeT arrLen e < sizeT arrLen e + envSizeSum arrLen env + 1 := by omega
    have hfuel : budget maxRec (env.map Prod.fst) FreshCycleInfo *
          (sizeT arrLen e + envSizeSum arrLen env + 1) + sizeT arrLen e <
        suffFuel env maxRec arrLen e := by
      unfold suffFuel
      omega
    have hsome := (synth_total env maxRec arrLen
      (sizeT arrLen e + envSizeSum arrLen env + 1) hK
      (suffFuel env maxRec arrLen e)).1 e FreshCycleInfo hsz hfuel
    cases hres : TypeExprToValExpr env maxRec arrLen (suffFuel env maxRec arrLen e) e
        FreshCycleInfo with
    | none => rw [hres] at hsome; simp at hsome
    | some p =>
      refine ⟨p, rfl, ?_⟩
      obtain ⟨r, st'⟩ := p
      have hInv0 : InvExp maxRec FreshCycleInfo := by
        intro n
        constructor
        · simp [FreshCycleInfo]
        · intro hc
          simp [FreshCycleInfo] at hc
      have hInv := (synth_inv env maxRec arrLen hmax
        (suffFuel env maxRec arrLen e)).1 e FreshCycleInfo r st' hInv0 hres
      intro n
      show st'.expansions n ≤ maxRec
      have h1 := (hInv n).1
      have h2 : min (st'.Structs n) maxRec ≤ maxRec := min_le_right _ _
      omega

/-- Witness for C1: the scenario-C environment — a struct `Node` whose single
field has type `*Node` — with the default maximum 3; the synthesis of a
root `Node` value answers within the computed budget. -/
theorem structExprToValExpr_recursion_bounded_witness :
    1 ≤ 3 ∧
    (TypeExprToValExpr [("Node", [TypeExpr.star (.named "Node")])] 3 1
      (suffFuel [("Node", [TypeExpr.star (.named "Node")])] 3 1 (.named "Node"))
      (.named "Node") FreshCycleInfo).isSome = true := by
  constructor
  · exact Nat.le_of_lt (by omega)
  · obtain ⟨p, hp, -⟩ :=
      (structExprToValExpr_recursion_bounded
        [("Node", [TypeExpr.star (.named "Node")])] 3 1 (.named "Node")
        (by omega)).2
    rw [hp]
    rfl

/-- C3: for both structs and interfaces the cycle memo is written before the
recursion into the type's body. On the first encounter of a struct name in
a `CycleInfo` (no memo yet), the bare composite-literal skeleton is in
`StructMem` in the very state the field recursion starts from, whatever
the counter says; on the first encounter of an interface, the synthesized
implementing-type declaration is in `InterfaceMem` in the state the
method-body generator receives — so a deeper mutually-recursive reference
finds the memo while the outer call is still in progress. -/
theorem cycle_memo_written_before_recursion :
    (∀ (env : Env) (maxRec arrLen fuel : Nat) (st : CycleInfo) (s : String)
        (fields : List TypeExpr),
      lookupEnv env s = some fields → st.StructMem s = none →
      (StructEnter st s).StructMem s = some (.compositeLit s []) ∧
      TypeExprToValExpr env maxRec arrLen (fuel + 1) (.named s) st =
        (match SynthList env maxRec arrLen fuel fields ((StructEnter st s).expand s) with
         | none => none
         | some (es, st') => some (.compositeLit s es, st'))) ∧
    (∀ (maxRec : Nat) (anyVal implName k : String)
        (bodyGen : IfaceCycle → List String × IfaceCycle) (st : IfaceCycle),
      st.InterfaceMem k = none →
      (IfaceEnter st k implName).InterfaceMem k = some implName ∧
      InterfaceTypeToValExpr maxRec k false anyVal implName bodyGen st =
        (.addrOf (.compositeLit implName []),
         implName :: (bodyGen (IfaceEnter st k implName)).1,
         (bodyGen (IfaceEnter st k implName)).2)) := by
  constructor
  · intro env maxRec arrLen fuel st s fields hlook hmem
    have hset : (StructEnter st s).StructMem s = some (.compositeLit s []) := by
      unfold StructEnter
      rw [structMem_bump]
      unfold CycleInfo.memoIfAbsent
      rw [hmem]
      simp
    refine ⟨hset, ?_⟩
    have hcond : ¬(maxRec < (StructEnter st s).Structs s ∧
        (st.StructMem s).isSome = true) := by
      rintro ⟨-, hsome⟩
      rw [hmem] at hsome
      simp at hsome
    simp only [TypeExprToValExpr, hlook]
    rw [if_neg hcond]
  · intro maxRec anyVal implName k bodyGen st hmem
    have hset : (IfaceEnter st k implName).InterfaceMem k = some implName := by
      unfold IfaceEnter
      rw [hmem]
      simp
    refine ⟨hset, ?_⟩
    have hcond : ¬(maxRec < (IfaceEnter st k implName).Interfaces k ∧
        (st.InterfaceMem k).isSome = true) := by
      rintro ⟨-, hsome⟩
      rw [hmem] at hsome
      simp at hsome
    simp only [InterfaceTypeToValExpr, Bool.false_eq_true, if_false]
    rw [if_neg hcond]

/-- Witness for C3: the mutually recursive environment of the spec's design
note — `A` contains `B` contains `A` — at the first encounter of `A`, and
a two-method interface identified as `"I"` with fresh implementing type
name `"Impl"`. -/
theorem cycle_memo_written_before_recursion_witness :
    (StructEnter FreshCycleInfo "A").StructMem "A" =
      some (SynExpr.compositeLit "A" []) ∧
    (IfaceEnter FreshIfaceCycle "I" "Impl").InterfaceMem "I" = some "Impl" := by
  constructor
  · exact ((cycle_memo_written_before_recursion.1
      [("A", [TypeExpr.named "B"]), ("B", [TypeExpr.named "A"])] 3 1 7
      FreshCycleInfo "A" [TypeExpr.named "B"] rfl rfl).1)
  · exact ((cycle_memo_written_before_recursion.2 3 "int" "Impl" "I"
      (fun st => ([], st)) FreshIfaceCycle rfl).1)

/-- Invariant of the map-entry loop: accepted keys are distinct, disjoint
from the already-seen set, and no more numerous than the remaining
iterations. -/
theorem mapLoop_spec (keyGen valGen : Nat → String) :
    ∀ (n i : Nat) (seen : List String),
      ((MapLoop keyGen valGen n i seen).map Prod.fst).Nodup ∧
      (∀ k ∈ (MapLoop keyGen valGen n i seen).map Prod.fst, k ∉ seen) ∧
      (MapLoop keyGen valGen n i seen).length ≤ n := by
  intro n
  induction n with
  | zero => intro i seen; simp [MapLoop]
  | succ m ih =>
    intro i seen
    by_cases hdup : seen.contains (keyGen i)
    · simp only [MapLoop, hdup, if_true]
      obtain ⟨h1, h2, h3⟩ := ih (i + 1) seen
      exact ⟨h1, h2, by omega⟩
    · simp only [MapLoop, hdup, if_false, Bool.false_eq_true]
      obtain ⟨h1, h2, h3⟩ := ih (i + 1) (seen ++ [keyGen i])
      have hnotin : keyGen i ∉ seen := by
        simpa using hdup
      refine ⟨?_, ?_, by simp; omega⟩
      · simp only [List.map_cons, List.nodup_cons]
        refine ⟨fun hk => ?_, h1⟩
        have := h2 _ hk
        simp at this
      · intro k' hk'
        simp only [List.map_cons, List.mem_cons] at hk'
        rcases hk' with hk' | hk'
        · subst hk'
          exact hnotin
        · intro hkseen
          exact (h2 k' hk') (by simp [hkseen])

/-- C5: map value synthesis never produces two entries with textually
identical key expressions — a synthesized entry whose key exact-matches an
already-accepted key is discarded without retrying and without extending
the loop — so the composite literal has at most the policy-chosen number
of entries and collisions simply shrink the map. -/
theorem mapExprToValExpr_no_dup_keys (mapLen : Nat) (keyGen valGen : Nat → String) :
    ((MapExprToValExpr mapLen keyGen valGen).map Prod.fst).Nodup ∧
    (MapExprToValExpr mapLen keyGen valGen).length ≤ mapLen := by
  obtain ⟨h1, -, h3⟩ := mapLoop_spec keyGen valGen mapLen 0 []
  exact ⟨h1, h3⟩

/-- C6: for an ungeneratable interface or function type, `TypeSpecToValExpr`
returns an expression (the function is total — no error value exists): for
an ungeneratable interface, an inline parameterless function literal
returning a literal `nil` of the target type, invoked immediately; for an
ungeneratable function type, a call of the type's constructor applied to a
literal `nil`. -/
theorem typeSpecToValExpr_ungeneratable_nil_stub
    (sIface sFunc isInterface : Bool)
    (correctedName structResult recursionResult : GoValExpr) :
    (sIface = true →
      TypeSpecToValExpr false sIface sFunc isInterface correctedName structResult
          recursionResult =
        GoValExpr.callExpr (.funcLit correctedName [.ident "nil"]) []) ∧
    (sIface = false → sFunc = true →
      TypeSpecToValExpr false sIface sFunc isInterface correctedName structResult
          recursionResult =
        GoValExpr.callExpr correctedName [.ident "nil"]) := by
  constructor
  · intro h
    simp [TypeSpecToValExpr, InterfaceNilFunc, h]
  · intro h1 h2
    simp [TypeSpecToValExpr, FuncNilFunc, h1, h2]

/-- Witness for C6: a named type whose underlying interface is flagged
ungeneratable yields the invoked nil-returning thunk, and one whose
underlying function type is flagged ungeneratable yields the constructor
call on `nil`. -/
theorem typeSpecToValExpr_ungeneratable_nil_stub_witness :
    TypeSpecToValExpr false true false false (.ident "I") (.ident "sr") (.ident "rr") =
      GoValExpr.callExpr (.funcLit (.ident "I") [.ident "nil"]) [] ∧
    TypeSpecToValExpr false false true false (.ident "F") (.ident "sr") (.ident "rr") =
      GoValExpr.callExpr (.ident "F") [.ident "nil"] := by
  constructor
  · exact (typeSpecToValExpr_ungeneratable_nil_stub true false false
      (.ident "I") (.ident "sr") (.ident "rr")).1 rfl
  · exact (typeSpecToValExpr_ungeneratable_nil_stub false true false
      (.ident "F") (.ident "sr") (.ident "rr")).2 rfl rfl

/-- Counterexample to C8 as stated: an embedded (unnamed) field whose type is
flagged ungeneratable-function by the probe is *not* skipped —
`StructFieldsToKeyValExpr` consults the probe only in the named-field
loop, so the embedded field still becomes a key/value entry (here in the
root package, with derived name `F`). -/
theorem structFieldsToKeyValExpr_embedded_not_skipped :
    StructFieldsToKeyValExpr true (fun _ : Unit => true) (fun _ => "F")
      (fun _ n => GoValExpr.ident n) [⟨[], ()⟩] = [("F", GoValExpr.ident "F")] := by
  simp [StructFieldsToKeyValExpr, isLowerFirst]

/-- C8 as amended: in declared field order, a named field is kept exactly
when its (possibly lower-case) name passes the root-package rule and its
type is not an ungeneratable function; an embedded/unnamed field is kept
exactly when its derived name passes the root-package rule (the
ungeneratable-function check does not apply to it); every kept field
becomes a key/value entry in source order. -/
theorem structFieldsToKeyValExpr_selection {α : Type} (isRoot : Bool)
    (cantGen : α → Bool) (unnamedIdent : α → String)
    (valueOf : α → String → GoValExpr) (fields : List (GoField α)) :
    StructFieldsToKeyValExpr isRoot cantGen unnamedIdent valueOf fields =
      (fields.map (specFieldEntries isRoot cantGen unnamedIdent valueOf)).flatten := by
  induction fields with
  | nil => simp [StructFieldsToKeyValExpr]
  | cons field rest ih =>
    simp only [StructFieldsToKeyValExpr, List.map_cons, List.flatten_cons, ih]
    congr 1
    unfold specFieldEntries
    by_cases hempty : field.names.isEmpty
    · have hnil : field.names = [] := by simpa using hempty
      simp only [hempty, if_true, hnil, List.filterMap_nil, List.append_nil]
      by_cases h1 : isRoot <;>
        by_cases h2 : isLowerFirst (unnamedIdent field.fieldType) <;>
          simp [h1, h2]
    · have hfun : (fun n => if ¬ isRoot ∧ isLowerFirst n then none
          else if cantGen field.fieldType then none
          else some (n, valueOf field.fieldType n)) =
          (fun n => if (isRoot ∨ ¬ isLowerFirst n) ∧ ¬ cantGen field.fieldType then
            some (n, valueOf field.fieldType n)
          else (none : Option (String × GoValExpr))) := by
        funext n
        by_cases h1 : isRoot <;> by_cases h2 : isLowerFirst n <;>
          by_cases h3 : cantGen field.fieldType <;> simp [h1, h2, h3]
      simp only [hempty, if_false, Bool.false_eq_true, List.nil_append, hfun]

/-- C10: in the generated result-capturing call statement, an empty result
identifier list produces no print/assignment statement at all (the second
returned statement is nil and the test case's `FuncPrintStmt` stays the
empty string); a non-empty identifier list produces an assignment whose
token is the plain `=` when every identifier is the blank `_` and the
define `:=` as soon as at least one identifier is not blank. -/
theorem funcDeclToExprStmt_print_assignment {κ : Type} (call : κ)
    (prettyPrint : PrintAssign κ → String) (names : List String) :
    ((FuncDeclToExprStmt call ([] : List PrintExpr)).2 = none ∧
      FuncPrintStmtField prettyPrint (FuncDeclToExprStmt call ([] : List PrintExpr)).2 = "") ∧
    (names ≠ [] →
      ∃ pa : PrintAssign κ,
        (FuncDeclToExprStmt call (names.map PrintExpr.ident)).2 = some pa ∧
        pa.Lhs = names.map PrintExpr.ident ∧
        pa.Tok = (if names.all (fun n => n = "_") then GoTok.assign
                  else GoTok.define)) := by
  constructor
  · exact ⟨rfl, rfl⟩
  · intro hne
    have hlen : ¬ (names.map PrintExpr.ident).length = 0 := by
      simp only [List.length_map, List.length_eq_zero]
      exact hne
    have hall : ∀ l : List String, ((l.map PrintExpr.ident).all fun e =>
        match e with
        | .ident n => n = "_"
        | .otherExpr => true) = l.all (fun n => n = "_") := by
      intro l
      induction l with
      | nil => rfl
      | cons a as ih => simp only [List.map_cons, List.all_cons, ih]
    simp only [FuncDeclToExprStmt, hlen, if_false, hall]
    exact ⟨_, rfl, rfl, rfl⟩

end Gen

end FinalUnit
